import Mathlib

/-!
Formal model of the mRMR-DEER pipeline.

This file embeds the pipeline of `gromacs_utils.py` and `run_mRMR.py` in Lean:
the xvg trajectory reader with its three discretization modes, the ndx index
reader, the keyword-argument boundary of `pre_process`, and the entropy /
mutual-information / mRMR selection core (the module `mRMR.py` is imported by
`run_mRMR.py` but is not part of the repository sources, so that core is
modelled from the specification).  Exact rational arithmetic stands in for
Python floats and real arithmetic for the information-theoretic scores.
-/

/-- One line of an xvg text file as consumed by `read_xvg`: either a comment
line (first character `@` or `#`) or a data line of whitespace-separated
numeric tokens. -/
inductive XvgLine where
  | comment : XvgLine
  | data : List ℚ → XvgLine
deriving DecidableEq

/-- Python `int()` applied to an exact rational value: truncation toward zero. -/
def pyTrunc (q : ℚ) : ℤ :=
  if 0 ≤ q then ⌊q⌋ else ⌈q⌉

/-- The per-token transform applied by `read_xvg` to a distance token: with a
nonzero bin size the token is divided by the bin size and converted with
`int()`; otherwise with a nonzero contact cutoff the token becomes `1` when it
exceeds the cutoff and `0` otherwise; otherwise the token is kept as is. -/
def cellTransform (binSize contact d : ℚ) : ℚ :=
  if binSize ≠ 0 then ((pyTrunc (d / binSize) : ℤ) : ℚ)
  else if contact ≠ 0 then (if contact < d then 1 else 0)
  else d

/-- Transform of the tokens of one data line in `read_xvg`: the first token is
the time value, kept unchanged only when `skipTime` is false; every later token
is a distance and goes through `cellTransform`. -/
def processLine (binSize contact : ℚ) (skipTime : Bool) : List ℚ → List ℚ
  | [] => []
  | t :: ds => (if skipTime then [] else [t]) ++ ds.map (cellTransform binSize contact)

/-- The row `read_xvg` appends for one line of a file: comment lines produce no
row, a data line produces its transformed tokens, prefixed with the current
trajectory number when `oneTraj` is false. -/
def lineRow (binSize contact : ℚ) (oneTraj skipTime : Bool) (trajNum : ℕ) :
    XvgLine → Option (List ℚ)
  | XvgLine.comment => none
  | XvgLine.data toks =>
      some ((if oneTraj then [] else [(trajNum : ℚ)])
        ++ processLine binSize contact skipTime toks)

/-- The file loop of `read_xvg`: files are consumed in order and the
trajectory counter is incremented exactly once after each file. -/
def read_xvg_go (binSize contact : ℚ) (oneTraj skipTime : Bool) :
    List (List XvgLine) → ℕ → List (List ℚ)
  | [], _ => []
  | f :: fs, trajNum =>
      f.filterMap (lineRow binSize contact oneTraj skipTime trajNum)
        ++ read_xvg_go binSize contact oneTraj skipTime fs (trajNum + 1)

/-- `read_xvg` from `gromacs_utils.py`: reads a list of xvg files into one
matrix, starting with trajectory counter `0`. -/
def read_xvg (files : List (List XvgLine)) (binSize contact : ℚ)
    (oneTraj skipTime : Bool) : List (List ℚ) :=
  read_xvg_go binSize contact oneTraj skipTime files 0

/-- The numeric tokens of a line (empty for a comment line). -/
def dataTokens : XvgLine → List ℚ
  | XvgLine.comment => []
  | XvgLine.data toks => toks

/-- Uncaught Python exceptions relevant to this model. -/
inductive PyError where
  | typeError : PyError
deriving DecidableEq

/-- The call boundary of `read_xvg`: the Python function iterates over its
`xvg_filenames` argument, so passing `None` (modelled as `Option.none`) raises
a `TypeError`, while any actual list is processed by `read_xvg`. -/
def read_xvg_call (arg : Option (List (List XvgLine))) (binSize contact : ℚ)
    (oneTraj skipTime : Bool) : Except PyError (List (List ℚ)) :=
  match arg with
  | none => Except.error PyError.typeError
  | some files => Except.ok (read_xvg files binSize contact oneTraj skipTime)

/-- One line of a Gromacs ndx file as consumed by `read_ndx`: blank lines are
skipped, a group header line has `[` as its first token and the group name as
its second, and any other line is a list of integer atom ids. -/
inductive NdxLine where
  | blank : NdxLine
  | header : String → NdxLine
  | ids : List ℤ → NdxLine
deriving DecidableEq

/-- Failure of `read_ndx`.  In the Python source an atom-id line before any
group header reads the never-assigned local variable `current_group`, which
raises an uncaught exception and aborts with no partial result. -/
inductive NdxError where
  | parseError : NdxError
deriving DecidableEq

/-- Dictionary assignment `index_dict[k] = v` on an association list. -/
def dictSet (d : List (String × List (List ℤ))) (k : String) (v : List (List ℤ)) :
    List (String × List (List ℤ)) :=
  match d with
  | [] => [(k, v)]
  | (k', v') :: rest => if k' = k then (k, v) :: rest else (k', v') :: dictSet rest k v

/-- Appending a row to a group: `index_dict[k].append(vs)`. -/
def dictAppend (d : List (String × List (List ℤ))) (k : String) (vs : List ℤ) :
    List (String × List (List ℤ)) :=
  match d with
  | [] => []
  | (k', v') :: rest =>
      if k' = k then (k', v' ++ [vs]) :: rest else (k', v') :: dictAppend rest k vs

/-- The line loop of `read_ndx`: `cur` is the current group (unset before the
first header), `d` the dictionary built so far. -/
def read_ndx_go (cur : Option String) (d : List (String × List (List ℤ))) :
    List NdxLine → Except NdxError (List (String × List (List ℤ)))
  | [] => Except.ok d
  | NdxLine.blank :: rest => read_ndx_go cur d rest
  | NdxLine.header n :: rest => read_ndx_go (some n) (dictSet d n []) rest
  | NdxLine.ids vs :: rest =>
      match cur with
      | none => Except.error NdxError.parseError
      | some g => read_ndx_go cur (dictAppend d g vs) rest

/-- `read_ndx` from `gromacs_utils.py`: parses the lines into a group
dictionary, then flattens each group's per-line rows into one id list. -/
def read_ndx (lines : List NdxLine) : Except NdxError (List (String × List ℤ)) :=
  (read_ndx_go none [] lines).map (fun d => d.map (fun p => (p.1, p.2.flatten)))

/-- The parameter names of `pre_process(xtcs, tprs, ndx, xvgs, AA=True,
rewrite=False)` in `gromacs_utils.py`. -/
def pre_process_params : List String :=
  ["xtcs", "tprs", "ndx", "xvgs", "AA", "rewrite"]

/-- The keyword-argument names of the `pre_process(...)` call in
`run_mRMR.py` (lines 48-49). -/
def run_mRMR_preprocess_kwargs : List String :=
  ["xtcs", "tprs", "ndx", "xvgs", "bin_size", "AA"]

/-- Python keyword binding at a call site: a keyword argument that is not
among the callee's parameter names raises a `TypeError` before the body
runs. -/
def bindCall (params kwargs : List String) : Except PyError Unit :=
  if kwargs.all (fun k => params.contains k) then Except.ok ()
  else Except.error PyError.typeError

/-- Modelled from the spec (§4.3): empirical frequency of the value `v` in
the sample `xs`.  The module `mRMR.py` holding the entropy estimator is
imported by `run_mRMR.py` but is not among the repository sources. -/
noncomputable def pfreq {α : Type} [DecidableEq α] (xs : List α) (v : α) : ℝ :=
  (xs.count v : ℝ) / (xs.length : ℝ)

/-- Modelled from the spec (§4.3): Shannon entropy `H = -Σ p_v * log p_v` of
a discrete sample, summed over its distinct values (which are exactly the
values of nonzero empirical frequency), in the fixed natural-log base. -/
noncomputable def entropy {α : Type} [DecidableEq α] (xs : List α) : ℝ :=
  -(xs.dedup.map (fun v => pfreq xs v * Real.log (pfreq xs v))).sum

/-- Modelled from the spec (§4.4): mutual information
`I(X;Y) = H(X) + H(Y) - H(X,Y)`, with the joint entropy taken over the
paired samples (each aligned pair is one joint symbol). -/
noncomputable def mutual_information {α β : Type} [DecidableEq α] [DecidableEq β]
    (xs : List α) (ys : List β) : ℝ :=
  entropy xs + entropy ys - entropy (xs.zip ys)

/-- Error raised by the mRMR selector when the candidate set is exhausted. -/
inductive MRMRError where
  | insufficientCandidates : MRMRError
deriving DecidableEq

/-- Modelled from the spec (§4.5): the inputs of the mRMR selector — the
discretized matrix (rows = frames), the MID and MIQ weights, the precomputed
per-column entropy vector, optional restriction bounds, the bin size used to
re-derive raw distances, and the iteration count. -/
structure MRMRInput where
  mat : List (List ℤ)
  wMID : ℝ
  wMIQ : ℝ
  Hvec : List ℝ
  restrict : Option (ℚ × ℚ)
  binSize : ℚ
  iters : ℕ

/-- Column `j` of the discretized matrix. -/
def column (mat : List (List ℤ)) (j : ℕ) : List ℤ :=
  mat.map (fun row => row.getD j 0)

/-- Number of feature columns of the matrix. -/
def ncols (mat : List (List ℤ)) : ℕ :=
  (mat.headD []).length

/-- Entry `j` of the precomputed entropy vector. -/
def HvecD (inp : MRMRInput) (j : ℕ) : ℝ :=
  inp.Hvec.getD j 0

/-- Modelled from the spec (§4.4, §4.5): `I(j,k)` between columns `j` and
`k`, reusing the precomputed marginal entropies as the spec requires. -/
noncomputable def miPair (inp : MRMRInput) (j k : ℕ) : ℝ :=
  HvecD inp j + HvecD inp k - entropy ((column inp.mat j).zip (column inp.mat k))

/-- Mean of a list of reals; the empty list yields `0`. -/
noncomputable def meanR (xs : List ℝ) : ℝ :=
  xs.sum / (xs.length : ℝ)

/-- Modelled from the spec (§4.5, step 2a): the mRMR score
`score(j) = H[j] - wMID * mean_k I(j,k) - wMIQ * mean_k I(j,k)/H[k]` over the
already selected columns `k`. -/
noncomputable def score (inp : MRMRInput) (S : List ℕ) (j : ℕ) : ℝ :=
  HvecD inp j - inp.wMID * meanR (S.map (fun k => miPair inp j k))
    - inp.wMIQ * meanR (S.map (fun k => miPair inp j k / HvecD inp k))

/-- Modelled from the spec (§4.5a): the restriction test — a column is
eligible only if in at least one frame the raw distance re-derived from its
bin id (`bin_id * bin_size`) lies within the closed bounds. -/
def passesRestrict (inp : MRMRInput) (j : ℕ) : Bool :=
  match inp.restrict with
  | none => true
  | some lh =>
      inp.mat.any (fun row =>
        decide (lh.1 ≤ (row.getD j 0 : ℚ) * inp.binSize)
          && decide ((row.getD j 0 : ℚ) * inp.binSize ≤ lh.2))

/-- The candidate columns of one round: unselected and restriction-passing,
in increasing column order (the iteration order of the scan). -/
def eligList (inp : MRMRInput) (S : List ℕ) : List ℕ :=
  (List.range (ncols inp.mat)).filter (fun j => decide (j ∉ S) && passesRestrict inp j)

/-- One step of the selector's maximum scan: a strictly better score replaces
the current best, so the earliest maximizer is kept. -/
noncomputable def better (f : ℕ → ℝ) (best j : ℕ) : ℕ :=
  if f best < f j then j else best

/-- Modelled from the spec (§4.5, step 2b): the first maximizer of `f` over a
candidate list (ties keep the earlier candidate), `none` when the list is
empty. -/
noncomputable def argmaxFirst (f : ℕ → ℝ) : List ℕ → Option ℕ
  | [] => none
  | c :: cs => some (cs.foldl (better f) c)

/-- Modelled from the spec (§4.5): the greedy selection loop — each round
appends the best eligible column, and an exhausted candidate set raises
`insufficientCandidates` instead of returning a short list. -/
noncomputable def mRMRGo (inp : MRMRInput) : ℕ → List ℕ → Except MRMRError (List ℕ)
  | 0, S => Except.ok S
  | n + 1, S =>
      match argmaxFirst (score inp S) (eligList inp S) with
      | none => Except.error MRMRError.insufficientCandidates
      | some j => mRMRGo inp n (S ++ [j])

/-- Modelled from the spec (§4.5): the mRMR selector, run for `iters` rounds
from the empty selected set. -/
noncomputable def mRMR (inp : MRMRInput) : Except MRMRError (List ℕ) :=
  mRMRGo inp inp.iters []

/-- The column `j` is an eligible column of maximum score for selected set
`S`, and has the lowest column index among the eligible maximizers. -/
def chosenIsBest (inp : MRMRInput) (S : List ℕ) (j : ℕ) : Prop :=
  j ∈ eligList inp S
    ∧ (∀ k ∈ eligList inp S, score inp S k ≤ score inp S j)
    ∧ (∀ k ∈ eligList inp S, score inp S j ≤ score inp S k → j ≤ k)

/-- A sample selector input: two constant columns, both weights zero,
precomputed entropies `[1, 0]`, no restriction, two iterations. -/
def sampleInput : MRMRInput :=
  ⟨[[5, 7], [5, 7]], 0, 0, [1, 0], none, 1, 2⟩

/-- A sample selector input with a single column but two requested
iterations. -/
def sampleInput2 : MRMRInput :=
  ⟨[[3], [3]], 0, 0, [0], none, 1, 2⟩

/-! Helper lemmas about lists. -/

theorem filterMapCongr {α β : Type} (f g : α → Option β) :
    ∀ l : List α, (∀ a ∈ l, f a = g a) → l.filterMap f = l.filterMap g := by
  intro l
  induction l with
  | nil => intro _; rfl
  | cons a as ih =>
      intro h
      simp only [List.filterMap_cons]
      rw [h a (by simp), ih (fun b hb => h b (by simp [hb]))]

theorem flatMapCongr {α β : Type} (f g : α → List β) :
    ∀ l : List α, (∀ a ∈ l, f a = g a) → l.flatMap f = l.flatMap g := by
  intro l
  induction l with
  | nil => intro _; rfl
  | cons a as ih =>
      intro h
      simp only [List.flatMap_cons]
      rw [h a (by simp), ih (fun b hb => h b (by simp [hb]))]

/-- The file loop of `read_xvg` pairs each file with its position offset by the
starting value of the trajectory counter. -/
theorem read_xvg_go_eq (binSize contact : ℚ) (oneTraj skipTime : Bool) :
    ∀ (fs : List (List XvgLine)) (t : ℕ),
      read_xvg_go binSize contact oneTraj skipTime fs t =
        (List.enumFrom t fs).flatMap
          (fun p => p.2.filterMap (lineRow binSize contact oneTraj skipTime p.1)) := by
  intro fs
  induction fs with
  | nil => intro t; rfl
  | cons f fs ih =>
      intro t
      simp only [read_xvg_go, List.enumFrom, List.flatMap_cons, ih]

/-- C7: `read_xvg` processes the input files sequentially in the given order,
emitting each file's non-comment rows in their original within-file order; the
trajectory counter increments exactly once per file regardless of its row
count (an empty file contributes zero rows but still advances the counter),
so with `oneTraj = false` each emitted row's leading entry is the 0-based
position of its source file. -/
theorem read_xvg_traj_spec (files : List (List XvgLine)) (binSize contact : ℚ)
    (skipTime : Bool) :
    read_xvg files binSize contact false skipTime =
      files.enum.flatMap (fun p => p.2.filterMap (fun l =>
        match l with
        | XvgLine.comment => none
        | XvgLine.data toks =>
            some ((p.1 : ℚ) :: processLine binSize contact skipTime toks))) := by
  rw [read_xvg, read_xvg_go_eq, List.enum]
  apply flatMapCongr
  intro p _
  apply filterMapCongr
  intro l _
  cases l with
  | comment => rfl
  | data toks => simp [lineRow]

/-- C5 (amended): with a positive bin size, every distance token `d` of a
non-comment line (every token after the first) is mapped to the bin id
`int(d / binSize)` truncated toward zero, which equals `⌊d / binSize⌋` for
nonnegative tokens; and the spec's binning instances hold: with bin size
`0.2`, the raw distance `0.35` maps to bin id `1` and `0.05` maps to `0`. -/
theorem read_xvg_binned_spec (files : List (List XvgLine)) (binSize : ℚ)
    (oneTraj skipTime : Bool) (hb : 0 < binSize)
    (hnn : ∀ f ∈ files, ∀ l ∈ f, ∀ d ∈ (dataTokens l).drop 1, 0 ≤ d) :
    read_xvg files binSize 0 oneTraj skipTime =
      files.enum.flatMap (fun p => p.2.filterMap (fun l =>
        match l with
        | XvgLine.comment => none
        | XvgLine.data toks =>
            some ((if oneTraj then [] else [(p.1 : ℚ)])
              ++ (if skipTime then [] else toks.take 1)
              ++ (toks.drop 1).map (fun d => ((⌊d / binSize⌋ : ℤ) : ℚ)))))
      ∧ read_xvg [[XvgLine.data [0, 35/100, 5/100]]] (2/10) 0 true true = [[1, 0]] := by
  constructor
  · rw [read_xvg, read_xvg_go_eq, List.enum]
    apply flatMapCongr
    intro p hp
    have hf : p.2 ∈ files := List.snd_mem_of_mem_enumFrom hp
    apply filterMapCongr
    intro l hl
    cases l with
    | comment => rfl
    | data toks =>
        simp only [lineRow]
        cases toks with
        | nil => simp [processLine]
        | cons t ds =>
            simp only [processLine, List.take_succ_cons, List.take_zero,
              List.drop_succ_cons, List.drop_zero, List.append_assoc]
            have hmap : List.map (cellTransform binSize 0) ds
                = List.map (fun d => ((⌊d / binSize⌋ : ℤ) : ℚ)) ds := by
              apply List.map_congr_left
              intro d hd
              have hd0 : 0 ≤ d :=
                hnn p.2 hf (XvgLine.data (t :: ds)) hl d (by simpa [dataTokens] using hd)
              rw [cellTransform, if_pos (show binSize ≠ 0 from ne_of_gt hb)]
              rw [pyTrunc, if_pos (div_nonneg hd0 hb.le)]
            rw [hmap]
  · norm_num [read_xvg, read_xvg_go, List.filterMap_cons, lineRow, processLine,
      cellTransform, pyTrunc]

/-- Witness for the amended C5 theorem at a concrete one-line file. -/
theorem read_xvg_binned_spec_witness :
    (0 : ℚ) < 1/5 ∧ read_xvg [[XvgLine.data [0, 1/2]]] (1/5) 0 true true = [[2]] := by
  constructor
  · norm_num
  · have h := (read_xvg_binned_spec [[XvgLine.data [0, 1/2]]] (1/5) true true (by norm_num)
      (by norm_num [dataTokens])).1
    rw [h]
    norm_num [List.enum, List.enumFrom, List.flatMap_cons, List.filterMap_cons]

/-- C5 counterexample: on a data line holding the distance token `-0.1` with
bin size `0.2`, the code (Python `int()`, truncation toward zero) produces bin
id `0`, while the claimed `floor(d / bin_size)` is `-1`. -/
theorem read_xvg_binned_counterexample :
    read_xvg [[XvgLine.data [0, -1/10]]] (1/5) 0 true true = [[0]]
      ∧ ((⌊((-1/10 : ℚ) / (1/5))⌋ : ℤ) : ℚ) = -1
      ∧ read_xvg [[XvgLine.data [0, -1/10]]] (1/5) 0 true true
          ≠ [[((⌊((-1/10 : ℚ) / (1/5))⌋ : ℤ) : ℚ)]] := by
  have hceil : (⌈-(1/2 : ℚ)⌉ : ℤ) = 0 := by norm_num
  refine ⟨?_, ?_, ?_⟩ <;>
    norm_num [read_xvg, read_xvg_go, List.filterMap_cons, lineRow, processLine,
      cellTransform, pyTrunc, hceil]

/-- C6: with bin size `0` and a positive contact cutoff, every distance token
is mapped to `1` exactly when it is strictly greater than the cutoff and to
`0` otherwise; in particular a distance exactly equal to the cutoff maps
to `0`. -/
theorem read_xvg_contact_spec (files : List (List XvgLine)) (contact : ℚ)
    (oneTraj skipTime : Bool) (hc : 0 < contact) :
    read_xvg files 0 contact oneTraj skipTime =
      files.enum.flatMap (fun p => p.2.filterMap (fun l =>
        match l with
        | XvgLine.comment => none
        | XvgLine.data toks =>
            some ((if oneTraj then [] else [(p.1 : ℚ)])
              ++ (if skipTime then [] else toks.take 1)
              ++ (toks.drop 1).map (fun d => if contact < d then (1 : ℚ) else 0))))
      ∧ cellTransform 0 contact contact = 0 := by
  constructor
  · rw [read_xvg, read_xvg_go_eq, List.enum]
    apply flatMapCongr
    intro p _
    apply filterMapCongr
    intro l _
    cases l with
    | comment => rfl
    | data toks =>
        simp only [lineRow]
        cases toks with
        | nil => simp [processLine]
        | cons t ds =>
            simp only [processLine, List.take_succ_cons, List.take_zero,
              List.drop_succ_cons, List.drop_zero, List.append_assoc]
            have hmap : List.map (cellTransform 0 contact) ds
                = List.map (fun d => if contact < d then (1 : ℚ) else 0) ds := by
              apply List.map_congr_left
              intro d _
              rw [cellTransform, if_neg (by simp), if_pos hc.ne']
            rw [hmap]
  · rw [cellTransform, if_neg (by simp), if_pos hc.ne', if_neg (lt_irrefl contact)]

/-- Witness for the C6 theorem at a concrete one-line file with one distance
above the cutoff and one exactly at the cutoff. -/
theorem read_xvg_contact_spec_witness :
    (0 : ℚ) < 1/4 ∧ read_xvg [[XvgLine.data [0, 1/2, 1/4]]] 0 (1/4) true true = [[1, 0]] := by
  constructor
  · norm_num
  · have h := (read_xvg_contact_spec [[XvgLine.data [0, 1/2, 1/4]]] (1/4) true true
      (by norm_num)).1
    rw [h]
    norm_num [List.enum, List.enumFrom, List.flatMap_cons, List.filterMap_cons]

/-- C9 counterexample: called with an empty list of input files, `read_xvg`
runs its file loop zero times and returns an empty result; it does not fail. -/
theorem read_xvg_call_empty_ok :
    read_xvg_call (some []) (1/5) 0 true true = Except.ok []
      ∧ (read_xvg_call (some []) (1/5) 0 true true).isOk = true :=
  ⟨rfl, rfl⟩

/-- C9 (amended): calling `read_xvg` with a missing (`None`) input file list
fails (a `TypeError` from iterating over `None`), while calling it with an
empty list does not fail and returns an empty (zero-row) result. -/
theorem read_xvg_call_spec (binSize contact : ℚ) (oneTraj skipTime : Bool) :
    read_xvg_call none binSize contact oneTraj skipTime = Except.error PyError.typeError
      ∧ read_xvg_call (some []) binSize contact oneTraj skipTime = Except.ok [] :=
  ⟨rfl, rfl⟩

/-- An atom-id line hit before any group header makes the line loop of
`read_ndx` fail, whatever comes afterwards. -/
theorem read_ndx_go_ids_before_header (post : List NdxLine) (vs : List ℤ) :
    ∀ pre2 : List NdxLine, (∀ l ∈ pre2, l = NdxLine.blank) →
      read_ndx_go none [] (pre2 ++ NdxLine.ids vs :: post)
        = Except.error NdxError.parseError := by
  intro pre2
  induction pre2 with
  | nil => intro _; rfl
  | cons a as ih =>
      intro h
      have ha : a = NdxLine.blank := h a (by simp)
      subst ha
      simp only [List.cons_append, read_ndx_go]
      exact ih (fun l hl => h l (by simp [hl]))

/-- C8: an index file in which an atom-id line appears before any group
header (possibly after blank lines) makes `read_ndx` fail fatally with a
parse error and return no partial result. -/
theorem read_ndx_header_required (pre post : List NdxLine) (vs : List ℤ)
    (hpre : ∀ l ∈ pre, l = NdxLine.blank) :
    read_ndx (pre ++ NdxLine.ids vs :: post) = Except.error NdxError.parseError := by
  rw [read_ndx, read_ndx_go_ids_before_header post vs pre hpre]
  rfl

/-- Witness for C8: a file whose very first line is an atom-id line. -/
theorem read_ndx_header_required_witness :
    read_ndx [NdxLine.ids [1, 2]] = Except.error NdxError.parseError :=
  read_ndx_header_required [] [] [1, 2] (by simp)

/-- C10: `pre_process` accepts exactly the keywords xtcs, tprs, ndx, xvgs,
AA, rewrite; the `run_mRMR.py` call additionally passes `bin_size`, so the
call raises a `TypeError` at the call boundary and any continuation of the
script (the entropy and mRMR computations) is never reached. -/
theorem pre_process_call_type_error {α : Type} (rest : Except PyError α) :
    ("bin_size" ∈ run_mRMR_preprocess_kwargs ∧ "bin_size" ∉ pre_process_params)
      ∧ bindCall pre_process_params run_mRMR_preprocess_kwargs
          = Except.error PyError.typeError
      ∧ (bindCall pre_process_params run_mRMR_preprocess_kwargs).bind (fun _ => rest)
          = Except.error PyError.typeError := by
  refine ⟨⟨by decide, by decide⟩, rfl, rfl⟩

/-- Deduplicating a list does not change the finset of its values. -/
theorem dedup_toFinset {α : Type} [DecidableEq α] (xs : List α) :
    xs.dedup.toFinset = xs.toFinset := by
  ext a
  simp

/-- The entropy sum over the deduplicated value list equals the finset sum
over the distinct values of the sample. -/
theorem entropy_eq_sum_toFinset {α : Type} [DecidableEq α] (xs : List α) :
    entropy xs = -∑ v ∈ xs.toFinset, pfreq xs v * Real.log (pfreq xs v) := by
  rw [entropy, ← dedup_toFinset, List.sum_toFinset _ xs.nodup_dedup]

/-- A constant sample has entropy `0`: its single value has frequency `1`
and `log 1 = 0`. -/
theorem entropy_replicate {α : Type} [DecidableEq α] (n : ℕ) (v : α) :
    entropy (List.replicate n v) = 0 := by
  cases n with
  | zero => simp [entropy]
  | succ m =>
      have hd : (List.replicate (m + 1) v).dedup = [v] := by
        induction m with
        | zero => simp
        | succ k ih =>
            rw [List.replicate_succ, List.dedup_cons_of_mem (by simp)]
            exact ih
      have h1 : pfreq (List.replicate (m + 1) v) v = 1 := by
        rw [pfreq, List.count_replicate_self, List.length_replicate]
        exact div_self (by exact_mod_cast Nat.succ_ne_zero m)
      rw [entropy, hd]
      simp [h1]

/-- C3: the entropy estimator returns `-Σ p_v * log p_v` over the distinct
values `v` of the sample (exactly those of nonzero empirical frequency), in
the single fixed natural-log base; in particular every constant sample (a
single repeated value) has entropy `0`. -/
theorem entropy_spec {α : Type} [DecidableEq α] :
    (∀ xs : List α, entropy xs = -∑ v ∈ xs.toFinset, pfreq xs v * Real.log (pfreq xs v))
      ∧ ∀ (n : ℕ) (v : α), entropy (List.replicate n v) = 0 :=
  ⟨fun xs => entropy_eq_sum_toFinset xs, fun n v => entropy_replicate n v⟩

/-- C4: for equal-length discrete samples the mutual-information estimator
returns `I(X;Y) = H(X) + H(Y) - H(X,Y)`, where the joint entropy `H(X,Y)` is
the Shannon entropy of the paired sequence, each aligned pair treated as one
joint symbol. -/
theorem mutual_information_spec {α β : Type} [DecidableEq α] [DecidableEq β]
    (xs : List α) (ys : List β) (_hlen : xs.length = ys.length) :
    mutual_information xs ys = entropy xs + entropy ys - entropy (xs.zip ys)
      ∧ entropy (xs.zip ys)
          = -∑ p ∈ (xs.zip ys).toFinset,
              pfreq (xs.zip ys) p * Real.log (pfreq (xs.zip ys) p) := by
  exact ⟨rfl, entropy_eq_sum_toFinset _⟩

/-- Witness for C4 at two concrete equal-length integer samples. -/
theorem mutual_information_spec_witness :
    mutual_information ([1, 2] : List ℤ) ([3, 3] : List ℤ)
      = entropy ([1, 2] : List ℤ) + entropy ([3, 3] : List ℤ)
        - entropy (([1, 2] : List ℤ).zip ([3, 3] : List ℤ)) :=
  (mutual_information_spec [1, 2] [3, 3] (by decide)).1

/-- The result of the maximum scan is the initial candidate or a scanned one. -/
theorem foldl_better_mem (f : ℕ → ℝ) :
    ∀ (l : List ℕ) (b : ℕ), l.foldl (better f) b ∈ b :: l := by
  intro l
  induction l with
  | nil => intro b; simp
  | cons c cs ih =>
      intro b
      rw [List.foldl_cons]
      rcases List.mem_cons.mp (ih (better f b c)) with h | h
      · rw [h, better]
        split
        · exact List.mem_cons_of_mem _ (List.mem_cons_self _ _)
        · exact List.mem_cons_self _ _
      · exact List.mem_cons_of_mem _ (List.mem_cons_of_mem _ h)

/-- The result of the maximum scan has a score at least that of the initial
candidate and of every scanned candidate. -/
theorem foldl_better_le (f : ℕ → ℝ) :
    ∀ (l : List ℕ) (b : ℕ), ∀ k ∈ b :: l, f k ≤ f (l.foldl (better f) b) := by
  intro l
  induction l with
  | nil =>
      intro b k hk
      rw [List.mem_singleton.mp hk]
      exact le_refl _
  | cons c cs ih =>
      intro b k hk
      rw [List.foldl_cons]
      have hbc : f b ≤ f (better f b c) := by
        rw [better]
        split
        · exact le_of_lt (by assumption)
        · exact le_refl _
      have hcc : f c ≤ f (better f b c) := by
        rw [better]
        split
        · exact le_refl _
        · exact le_of_not_lt (by assumption)
      have hstep : f (better f b c) ≤ f (cs.foldl (better f) (better f b c)) :=
        ih (better f b c) (better f b c) (List.mem_cons_self _ _)
      rcases List.mem_cons.mp hk with h | h
      · rw [h]; exact hbc.trans hstep
      · rcases List.mem_cons.mp h with h2 | h2
        · rw [h2]; exact hcc.trans hstep
        · exact ih (better f b c) k (List.mem_cons_of_mem _ h2)

/-- If the maximum scan does not strictly improve on the initial candidate,
it returns the initial candidate. -/
theorem foldl_better_stay (f : ℕ → ℝ) :
    ∀ (l : List ℕ) (b : ℕ), f (l.foldl (better f) b) ≤ f b → l.foldl (better f) b = b := by
  intro l
  induction l with
  | nil => intro b _; rfl
  | cons c cs ih =>
      intro b h
      rw [List.foldl_cons] at h ⊢
      by_cases hlt : f b < f c
      · exfalso
        have hq : better f b c = c := by rw [better, if_pos hlt]
        rw [hq] at h
        have h1 : f c ≤ f (cs.foldl (better f) c) :=
          foldl_better_le f cs c c (List.mem_cons_self _ _)
        exact absurd (h1.trans h) (not_le_of_lt hlt)
      · have hq : better f b c = b := by rw [better, if_neg hlt]
        rw [hq] at h ⊢
        exact ih b h

/-- Over a strictly increasing candidate list the maximum scan returns the
smallest candidate among those of maximal score. -/
theorem foldl_better_first (f : ℕ → ℝ) :
    ∀ (l : List ℕ) (b : ℕ), (b :: l).Pairwise (· < ·) →
      ∀ k ∈ b :: l, f (l.foldl (better f) b) ≤ f k → l.foldl (better f) b ≤ k := by
  intro l
  induction l with
  | nil =>
      intro b _ k hk _
      rw [List.mem_singleton.mp hk]
      exact le_refl _
  | cons c cs ih =>
      intro b hp k hk hfk
      rw [List.foldl_cons] at hfk ⊢
      have hbc_lt : b < c := (List.pairwise_cons.mp hp).1 c (List.mem_cons_self _ _)
      have hp2 : (c :: cs).Pairwise (· < ·) := (List.pairwise_cons.mp hp).2
      have hpb : (b :: cs).Pairwise (· < ·) := by
        refine List.pairwise_cons.mpr ⟨?_, (List.pairwise_cons.mp hp2).2⟩
        intro x hx
        exact (List.pairwise_cons.mp hp).1 x (List.mem_cons_of_mem _ hx)
      by_cases hlt : f b < f c
      · have hq : better f b c = c := by rw [better, if_pos hlt]
        rw [hq] at hfk ⊢
        rcases List.mem_cons.mp hk with h1 | h1
        · exfalso
          have h2 : f c ≤ f (cs.foldl (better f) c) :=
            foldl_better_le f cs c c (List.mem_cons_self _ _)
          rw [h1] at hfk
          exact absurd (h2.trans hfk) (not_le_of_lt hlt)
        · exact ih c hp2 k h1 hfk
      · have hq : better f b c = b := by rw [better, if_neg hlt]
        rw [hq] at hfk ⊢
        rcases List.mem_cons.mp hk with h1 | h1
        · exact ih b hpb k (by rw [h1]; exact List.mem_cons_self _ _) hfk
        · rcases List.mem_cons.mp h1 with h2 | h2
          · have hres : cs.foldl (better f) b = b := by
              apply foldl_better_stay
              calc f (cs.foldl (better f) b) ≤ f k := hfk
                _ ≤ f b := by rw [h2]; exact le_of_not_lt hlt
            rw [hres, h2]
            exact le_of_lt hbc_lt
          · exact ih b hpb k (List.mem_cons_of_mem _ h2) hfk

/-- A column returned by the maximum scan is a member of the candidate list. -/
theorem argmaxFirst_mem (f : ℕ → ℝ) (l : List ℕ) (j : ℕ)
    (h : argmaxFirst f l = some j) : j ∈ l := by
  cases l with
  | nil => simp [argmaxFirst] at h
  | cons c cs =>
      simp only [argmaxFirst, Option.some.injEq] at h
      rw [← h]
      exact foldl_better_mem f cs c

/-- Over a strictly increasing candidate list, the column returned by the
maximum scan maximizes the score and is least among the maximizers. -/
theorem argmaxFirst_best (f : ℕ → ℝ) (l : List ℕ) (j : ℕ)
    (hp : l.Pairwise (· < ·)) (h : argmaxFirst f l = some j) :
    (∀ k ∈ l, f k ≤ f j) ∧ ∀ k ∈ l, f j ≤ f k → j ≤ k := by
  cases l with
  | nil => simp [argmaxFirst] at h
  | cons c cs =>
      simp only [argmaxFirst, Option.some.injEq] at h
      subst h
      exact ⟨fun k hk => foldl_better_le f cs c k hk,
        fun k hk hle => foldl_better_first f cs c hp k hk hle⟩

/-- The candidate list of a round is strictly increasing. -/
theorem eligList_pairwise (inp : MRMRInput) (S : List ℕ) :
    (eligList inp S).Pairwise (· < ·) :=
  (List.pairwise_lt_range _).filter _

/-- The candidate list of a round has no duplicates. -/
theorem eligList_nodup (inp : MRMRInput) (S : List ℕ) : (eligList inp S).Nodup :=
  (List.nodup_range _).filter _

/-- Appending a chosen column to the selected set removes exactly that column
from the candidate list. -/
theorem eligList_append_single (inp : MRMRInput) (S : List ℕ) (j : ℕ) :
    eligList inp (S ++ [j]) = (eligList inp S).filter (fun k => decide (k ≠ j)) := by
  rw [eligList, eligList, List.filter_filter]
  apply List.filter_congr
  intro k _
  have h2 : decide (k ∉ S ++ [j]) = (decide (k ≠ j) && decide (k ∉ S)) := by
    by_cases ha : k = j <;> by_cases hb : k ∈ S <;> simp [ha, hb]
  rw [h2, Bool.and_assoc]

/-- Filtering one present element out of a duplicate-free list shortens it by
exactly one. -/
theorem length_filter_ne (l : List ℕ) (j : ℕ) (hnd : l.Nodup) (hj : j ∈ l) :
    (l.filter (fun k => decide (k ≠ j))).length = l.length - 1 := by
  induction l with
  | nil => cases hj
  | cons a as ih =>
      have hnotin : a ∉ as := (List.nodup_cons.mp hnd).1
      rcases List.mem_cons.mp hj with h1 | h1
      · subst h1
        rw [List.filter_cons]
        have hda : decide (j ≠ j) = false := by simp
        rw [hda]
        have hself : as.filter (fun k => decide (k ≠ j)) = as := by
          apply List.filter_eq_self.mpr
          intro b hb
          simp only [decide_eq_true_eq]
          exact fun hba => hnotin (hba ▸ hb)
        rw [if_neg (by simp)]
        rw [hself]
        simp
      · have haj : a ≠ j := fun h => hnotin (h ▸ h1)
        rw [List.filter_cons]
        have hda : decide (a ≠ j) = true := by simp [haj]
        rw [hda]
        simp only [if_true, List.length_cons]
        rw [ih (List.nodup_cons.mp hnd).2 h1]
        have hpos : 1 ≤ as.length := List.length_pos.mpr (List.ne_nil_of_mem h1)
        omega

/-- Unfolding of one round of the selection loop. -/
theorem mRMRGo_succ (inp : MRMRInput) (n : ℕ) (S : List ℕ) :
    mRMRGo inp (n + 1) S
      = match argmaxFirst (score inp S) (eligList inp S) with
        | none => Except.error MRMRError.insufficientCandidates
        | some j => mRMRGo inp n (S ++ [j]) :=
  rfl

/-- With fewer candidates than remaining rounds the selection loop fails. -/
theorem mRMRGo_insufficient (inp : MRMRInput) :
    ∀ (n : ℕ) (S : List ℕ), (eligList inp S).length < n →
      mRMRGo inp n S = Except.error MRMRError.insufficientCandidates := by
  intro n
  induction n with
  | zero => intro S h; exact absurd h (Nat.not_lt_zero _)
  | succ n ih =>
      intro S h
      rw [mRMRGo_succ]
      cases he : argmaxFirst (score inp S) (eligList inp S) with
      | none => rfl
      | some j =>
          have hj := argmaxFirst_mem _ _ _ he
          have hlen : (eligList inp (S ++ [j])).length < n := by
            rw [eligList_append_single, length_filter_ne _ _ (eligList_nodup inp S) hj]
            have hpos : 1 ≤ (eligList inp S).length :=
              List.length_pos.mpr (List.ne_nil_of_mem hj)
            omega
          exact ih _ hlen

/-- Invariant of the selection loop on success: the result extends the
accumulator by one best choice per remaining round. -/
theorem mRMRGo_ok_spec (inp : MRMRInput) :
    ∀ (n : ℕ) (S sel : List ℕ), mRMRGo inp n S = Except.ok sel →
      sel.take S.length = S ∧ sel.length = S.length + n ∧
        ∀ r, S.length ≤ r → r < sel.length →
          chosenIsBest inp (sel.take r) (sel.getD r 0) := by
  intro n
  induction n with
  | zero =>
      intro S sel h
      simp only [mRMRGo, Except.ok.injEq] at h
      subst h
      refine ⟨List.take_length S, by simp, ?_⟩
      intro r h1 h2
      omega
  | succ n ih =>
      intro S sel h
      rw [mRMRGo_succ] at h
      cases he : argmaxFirst (score inp S) (eligList inp S) with
      | none => rw [he] at h; cases h
      | some j =>
          rw [he] at h
          obtain ⟨htake, hlen, hr⟩ := ih (S ++ [j]) sel h
          rw [List.length_append, List.length_singleton] at htake hlen
          have htakeS : sel.take S.length = S := by
            have h1 := congrArg (List.take S.length) htake
            rw [List.take_take, Nat.min_eq_left (Nat.le_succ _), List.take_left] at h1
            exact h1
          refine ⟨htakeS, by omega, ?_⟩
          intro r hr1 hr2
          rcases eq_or_lt_of_le hr1 with heq | hlt
          · have hget : sel.getD r 0 = j := by
              have h2 : sel[r]? = some j := by
                rw [← heq, ← List.getElem?_take_of_lt (Nat.lt_succ_self S.length), htake]
                exact List.getElem?_concat_length S j
              simp [List.getD, h2]
            rw [hget, ← heq, htakeS]
            have hb := argmaxFirst_best (score inp S) (eligList inp S) j
              (eligList_pairwise inp S) he
            exact ⟨argmaxFirst_mem _ _ _ he, hb.1, hb.2⟩
          · exact hr r (by rw [List.length_append, List.length_singleton]; omega) hr2

/-- C1: on a successful run, each round of the selector appends an eligible
(unselected and restriction-passing) column of maximum score with ties broken
by lowest column index, where selected prefix `take r` is the state of round
`r`; and the score over an empty selected set reduces to the precomputed
entropy `H[j]` (both penalty means are `0`), so the first round picks the
column of maximum entropy. -/
theorem mRMR_selects_best (inp : MRMRInput) (sel : List ℕ) (r : ℕ)
    (hok : mRMR inp = Except.ok sel) (hr : r < sel.length) :
    chosenIsBest inp (sel.take r) (sel.getD r 0)
      ∧ ∀ j, score inp [] j = HvecD inp j := by
  constructor
  · have h := (mRMRGo_ok_spec inp inp.iters [] sel (by rwa [mRMR] at hok)).2.2
    exact h r (Nat.zero_le r) hr
  · intro j
    rw [score]
    simp [meanR]

/-- C2: whenever fewer columns pass the (round-independent) eligibility test
than the requested number of iterations, the selector fails with
`insufficientCandidates`; and a successful run returns exactly `iters`
columns, never a shorter list. -/
theorem mRMR_insufficient (inp : MRMRInput) :
    ((eligList inp []).length < inp.iters →
        mRMR inp = Except.error MRMRError.insufficientCandidates)
      ∧ ∀ sel, mRMR inp = Except.ok sel → sel.length = inp.iters := by
  constructor
  · intro h
    rw [mRMR]
    exact mRMRGo_insufficient inp inp.iters [] h
  · intro sel hok
    have h := (mRMRGo_ok_spec inp inp.iters [] sel (by rwa [mRMR] at hok)).2.1
    simpa using h

/-- The sample input runs to completion and selects column 0 and then
column 1. -/
theorem sampleInput_run : mRMR sampleInput = Except.ok [0, 1] := by
  have e0 : eligList sampleInput [] = [0, 1] := rfl
  have e1 : eligList sampleInput [0] = [1] := rfl
  have s0 : score sampleInput [] 0 = 1 := by
    simp [score, sampleInput, HvecD]
  have s1 : score sampleInput [] 1 = 0 := by
    simp [score, sampleInput, HvecD]
  have a0 : argmaxFirst (score sampleInput []) [0, 1] = some 0 := by
    rw [show argmaxFirst (score sampleInput []) [0, 1]
        = some ([1].foldl (better (score sampleInput [])) 0) from rfl]
    simp only [List.foldl_cons, List.foldl_nil, better, s0, s1]
    norm_num
  have a1 : argmaxFirst (score sampleInput [0]) [1] = some 1 := rfl
  have h2 : sampleInput.iters = 2 := rfl
  rw [mRMR, h2]
  rw [show (2 : ℕ) = 1 + 1 from rfl, mRMRGo_succ, e0, a0]
  show mRMRGo sampleInput 1 ([] ++ [0]) = _
  rw [show ([] : List ℕ) ++ [0] = [0] from rfl]
  rw [show (1 : ℕ) = 0 + 1 from rfl, mRMRGo_succ, e1, a1]
  rfl

/-- Witness for C1: in the sample run the second round's choice, column 1, is
the best eligible column given the selected prefix `[0]`, and the empty-set
score of column 0 is its precomputed entropy. -/
theorem mRMR_selects_best_witness :
    chosenIsBest sampleInput [0] 1 ∧ score sampleInput [] 0 = HvecD sampleInput 0 := by
  have h := mRMR_selects_best sampleInput [0, 1] 1 sampleInput_run (by norm_num)
  exact ⟨h.1, h.2 0⟩

/-- Witness for C2: the single-column sample with two requested iterations
fails with `insufficientCandidates`, and the successful two-column sample run
returns exactly `iters = 2` columns. -/
theorem mRMR_insufficient_witness :
    mRMR sampleInput2 = Except.error MRMRError.insufficientCandidates
      ∧ ([0, 1] : List ℕ).length = sampleInput.iters :=
  ⟨(mRMR_insufficient sampleInput2).1 (by decide),
    (mRMR_insufficient sampleInput).2 [0, 1] sampleInput_run⟩
